import Mathlib

/-!
# Verification of `pagerank.py`

A shallow embedding of the PageRank estimator `pagerank.py` (the corpus data
model, `transition_model`, `sample_pagerank` and `iterate_pagerank`) together
with proofs settling the specification claims about it.

Python floating point arithmetic is modelled by exact rational arithmetic
(`ℚ`); a Python exception is modelled by the `Except` monad.  Random draws
(`random.choice` / `np.random.choice`) are modelled by explicit oracle
parameters: the starting page and a function giving the page drawn at each
step.
-/

/-- A page identifier (a filename string in the Python program). -/
abbrev Page := String

/-- A corpus: the Python dict mapping each page to the set of pages it links
to.  `pages` lists the dict keys in insertion order; `links` gives the dict
value stored at each key.  A value `none` models a Python `None` stored in the
dict (which a well-formed corpus never contains, but which `transition_model`
explicitly tests for); `links` is only meaningful on members of `pages` —
looking up any other page raises `KeyError` in Python. -/
structure Corpus where
  pages : List Page
  links : Page → Option (Finset Page)

/-- `len(corpus)`: the number of pages. -/
def Corpus.N (c : Corpus) : ℕ := c.pages.length

/-- The set of pages `p` links to, reading a stored `None` (or a non-key) as
the empty set.  On every key of a well-formed corpus this is exactly the
stored set. -/
def linksD (c : Corpus) (p : Page) : Finset Page := (c.links p).getD ∅

/-- Well-formedness of a LinkGraph (spec §3): the keys are distinct, every
stored value is an actual set (never `None`), all link targets are keys of the
same corpus, and no page links to itself. -/
def Corpus.Valid (c : Corpus) : Prop :=
  c.pages.Nodup ∧ ∀ p ∈ c.pages,
    (c.links p).isSome = true ∧ ∀ q ∈ linksD c p, q ∈ c.pages ∧ q ≠ p

/-- The Python exceptions the embedded code can raise. -/
inductive PyErr where
  | keyError
  | zeroDivisionError
deriving DecidableEq

/-- `true` iff the computation returned normally (raised no exception). -/
def exceptOk {ε α : Type} : Except ε α → Bool
  | .ok _ => true
  | .error _ => false

/-- Embedding of `transition_model(corpus, page, damping_factor)`.

The Python body first evaluates `corpus[page]` (raising `KeyError` when `page`
is not a key), takes `len(corpus)`, and then branches on `linked_pages is
None`; in the `None` branch it computes `1 / total_pages`, otherwise
`(1 - damping_factor) / total_pages` and `damping_factor / len(linked_pages)`
— each division raising `ZeroDivisionError` when its denominator is zero.
The returned dict has exactly the corpus keys; it is modelled as a total
function whose meaningful domain is `corpus.pages`. -/
def transition_model (corpus : Corpus) (page : Page) (damping_factor : ℚ) :
    Except PyErr (Page → ℚ) :=
  if page ∈ corpus.pages then
    match corpus.links page with
    | none =>
        if corpus.N = 0 then .error .zeroDivisionError
        else .ok fun _ => 1 / (corpus.N : ℚ)
    | some linked_pages =>
        if corpus.N = 0 then .error .zeroDivisionError
        else if linked_pages.card = 0 then .error .zeroDivisionError
        else .ok fun key =>
          if key ∈ linked_pages then
            (1 - damping_factor) / (corpus.N : ℚ) +
              damping_factor / (linked_pages.card : ℚ)
          else (1 - damping_factor) / (corpus.N : ℚ)
  else .error .keyError

/-- The two-page cycle `{"a.html": {"b.html"}, "b.html": {"a.html"}}`. -/
def cycle2 : Corpus where
  pages := ["a.html", "b.html"]
  links := fun p =>
    if p = "a.html" then some {"b.html"}
    else if p = "b.html" then some {"a.html"} else none

/-- A corpus whose page `"a.html"` is dangling (empty outbound set):
`{"a.html": set(), "b.html": {"a.html"}}`. -/
def dangling2 : Corpus where
  pages := ["a.html", "b.html"]
  links := fun p =>
    if p = "a.html" then some ∅
    else if p = "b.html" then some {"a.html"} else none

/-- Summing `a + b` over the members of `L` and `a` over the other list
entries, for a duplicate-free list containing `L`. -/
theorem sum_map_base_add_ite (l : List Page) (L : Finset Page) (a b : ℚ)
    (hnd : l.Nodup) (hsub : ∀ q ∈ L, q ∈ l) :
    (l.map fun q => if q ∈ L then a + b else a).sum =
      (l.length : ℚ) * a + (L.card : ℚ) * b := by
  induction l generalizing L with
  | nil =>
      have hL : L = ∅ := Finset.eq_empty_of_forall_not_mem fun q hq => by
        simpa using hsub q hq
      simp [hL]
  | cons x t ih =>
      have hx : x ∉ t := (List.nodup_cons.mp hnd).1
      have hnt : t.Nodup := (List.nodup_cons.mp hnd).2
      by_cases hxL : x ∈ L
      · have hmap : (List.map (fun q => if q ∈ L then a + b else a) t)
            = List.map (fun q => if q ∈ L.erase x then a + b else a) t := by
          refine List.map_congr_left fun q hq => ?_
          have hqx : q ≠ x := fun h => hx (h ▸ hq)
          simp [Finset.mem_erase, hqx]
        have hsub' : ∀ q ∈ L.erase x, q ∈ t := by
          intro q hq
          rcases Finset.mem_erase.mp hq with ⟨hne, hqL⟩
          rcases List.mem_cons.mp (hsub q hqL) with h | h
          · exact absurd h hne
          · exact h
        have hpos : 1 ≤ L.card := Finset.card_pos.mpr ⟨x, hxL⟩
        have hcast : ((L.erase x).card : ℚ) = (L.card : ℚ) - 1 := by
          rw [Finset.card_erase_of_mem hxL]
          push_cast [hpos]
          ring
        simp only [List.map_cons, List.sum_cons, if_pos hxL, hmap,
          ih (L.erase x) hnt hsub', hcast, List.length_cons]
        push_cast
        ring
      · have hsub' : ∀ q ∈ L, q ∈ t := by
          intro q hq
          rcases List.mem_cons.mp (hsub q hq) with h | h
          · exact absurd (h ▸ hq) hxL
          · exact h
        simp only [List.map_cons, List.sum_cons, if_neg hxL,
          ih L hnt hsub', List.length_cons]
        push_cast
        ring

theorem length_ne_zero_of_mem {p : Page} {c : Corpus} (hp : p ∈ c.pages) :
    c.N ≠ 0 := by
  have := List.length_pos.mpr (List.ne_nil_of_mem hp)
  unfold Corpus.N
  omega

theorem linksD_eq_of_links {c : Corpus} {p : Page} {L : Finset Page}
    (h : c.links p = some L) : linksD c p = L := by
  unfold linksD
  rw [h]
  rfl

/-- C1: on a dangling page the claim expects the uniform distribution, but the
code's `linked_pages is None` test does not fire on an empty set, so the later
division `damping_factor / len(linked_pages)` raises `ZeroDivisionError`. -/
theorem transition_model_dangling_raises :
    dangling2.Valid ∧ "a.html" ∈ dangling2.pages ∧ linksD dangling2 "a.html" = ∅ ∧
      transition_model dangling2 "a.html" (17/20) = .error .zeroDivisionError :=
  ⟨by unfold Corpus.Valid; decide, by decide, rfl, rfl⟩

/-- C2: for a page with a non-empty outbound set `L` of size `k`,
`transition_model` returns normally, assigns `(1-d)/N + d/k` to members of `L`
and `(1-d)/N` to every other page, and the values over the corpus pages are
non-negative and sum to `1`. -/
theorem transition_model_normal (c : Corpus) (page : Page) (d : ℚ) (L : Finset Page)
    (hv : c.Valid) (hp : page ∈ c.pages) (hL : c.links page = some L) (hLne : L ≠ ∅)
    (hd0 : 0 < d) (hd1 : d < 1) :
    ∃ f, transition_model c page d = Except.ok f ∧
      (∀ q, f q = if q ∈ L then (1 - d) / (c.N : ℚ) + d / (L.card : ℚ)
        else (1 - d) / (c.N : ℚ)) ∧
      (∀ q, 0 ≤ f q) ∧ (c.pages.map f).sum = 1 := by
  have hN : c.N ≠ 0 := length_ne_zero_of_mem hp
  have hk : L.card ≠ 0 := fun h => hLne (Finset.card_eq_zero.mp h)
  have hbase : (0 : ℚ) ≤ (1 - d) / (c.N : ℚ) :=
    div_nonneg (by linarith) (Nat.cast_nonneg _)
  have hextra : (0 : ℚ) ≤ d / (L.card : ℚ) :=
    div_nonneg hd0.le (Nat.cast_nonneg _)
  refine ⟨fun key => if key ∈ L then (1 - d) / (c.N : ℚ) + d / (L.card : ℚ)
      else (1 - d) / (c.N : ℚ), ?_, fun q => rfl, ?_, ?_⟩
  · simp only [transition_model, if_pos hp, hL, if_neg hN, if_neg hk]
  · intro q
    by_cases hq : q ∈ L
    · simp only [if_pos hq]
      exact add_nonneg hbase hextra
    · simp only [if_neg hq]
      exact hbase
  · rw [sum_map_base_add_ite c.pages L _ _ hv.1
      (fun q hq => ((hv.2 page hp).2 q (by rwa [linksD_eq_of_links hL])).1)]
    have hNQ : ((c.N : ℚ)) ≠ 0 := Nat.cast_ne_zero.mpr hN
    have hkQ : ((L.card : ℚ)) ≠ 0 := Nat.cast_ne_zero.mpr hk
    unfold Corpus.N at *
    field_simp

/-- Witness for C2 at the two-page cycle, page `"a.html"`, `d = 17/20`. -/
theorem transition_model_normal_witness :
    cycle2.Valid ∧ (0 : ℚ) < 17/20 ∧ (17/20 : ℚ) < 1 ∧
      (∃ f, transition_model cycle2 "a.html" (17/20) = Except.ok f ∧
        (∀ q, f q = if q ∈ ({"b.html"} : Finset Page) then
            (1 - 17/20) / (cycle2.N : ℚ) + (17/20) / ((({"b.html"} : Finset Page)).card : ℚ)
          else (1 - 17/20) / (cycle2.N : ℚ)) ∧
        (∀ q, 0 ≤ f q) ∧ (cycle2.pages.map f).sum = 1) :=
  ⟨by unfold Corpus.Valid; decide, by norm_num, by norm_num,
    transition_model_normal cycle2 "a.html" (17/20) {"b.html"}
      (by unfold Corpus.Valid; decide) (by decide) rfl (by decide)
      (by norm_num) (by norm_num)⟩

/-- C7 fails as stated: `d = 2` lies outside `(0,1)` yet `transition_model`
returns normally on the two-page cycle — the code never validates the damping
factor. -/
theorem transition_model_no_damping_validation :
    (1 : ℚ) < 2 ∧ exceptOk (transition_model cycle2 "a.html" 2) = true :=
  ⟨by norm_num, rfl⟩

/-- C7 amended: the only failures are `KeyError` when `page` is not a key
(which covers every call on an empty corpus) and `ZeroDivisionError` when the
page's outbound set is empty; the damping factor is never validated, and for a
key with a non-empty outbound set the call returns normally for every `d`. -/
theorem transition_model_error_conditions (c : Corpus) (page : Page) (d : ℚ)
    (hv : c.Valid) :
    (page ∉ c.pages → transition_model c page d = .error .keyError) ∧
    (page ∈ c.pages → linksD c page = ∅ →
      transition_model c page d = .error .zeroDivisionError) ∧
    (page ∈ c.pages → linksD c page ≠ ∅ →
      exceptOk (transition_model c page d) = true) := by
  refine ⟨fun hp => ?_, fun hp hempty => ?_, fun hp hne => ?_⟩
  · simp only [transition_model, if_neg hp]
  · have hN : c.N ≠ 0 := length_ne_zero_of_mem hp
    obtain ⟨L, hL⟩ := Option.isSome_iff_exists.mp (hv.2 page hp).1
    have hLe : L = ∅ := by rwa [linksD_eq_of_links hL] at hempty
    simp [transition_model, if_pos hp, hL, if_neg hN, hLe]
  · have hN : c.N ≠ 0 := length_ne_zero_of_mem hp
    obtain ⟨L, hL⟩ := Option.isSome_iff_exists.mp (hv.2 page hp).1
    have hLe : L ≠ ∅ := by rwa [linksD_eq_of_links hL] at hne
    have hk : L.card ≠ 0 := fun h => hLe (Finset.card_eq_zero.mp h)
    simp only [transition_model, if_pos hp, hL, if_neg hN, if_neg hk, exceptOk]

/-- The state of the sampling walk of `sample_pagerank` after `i` loop
iterations: the page most recently generated (`first_page` before any draw),
the key set of `result_dict`, and the visit counts.  Iteration `i` computes
the transition model of the current page (iteration 0 uses `first_page`;
later iterations the previously generated page) — propagating any exception —
and then records a visit to the page drawn by the oracle `draws i`. -/
def sample_loop (corpus : Corpus) (damping_factor : ℚ) (draws : ℕ → Page)
    (first_page : Page) : ℕ → Except PyErr (Page × Finset Page × (Page → ℕ))
  | 0 => .ok (first_page, ∅, fun _ => 0)
  | i + 1 =>
      match sample_loop corpus damping_factor draws first_page i with
      | .error e => .error e
      | .ok (cur, vis, cnt) =>
          match transition_model corpus cur damping_factor with
          | .error e => .error e
          | .ok _ => .ok (draws i, insert (draws i) vis,
              fun p => if p = draws i then cnt p + 1 else cnt p)

/-- Embedding of `sample_pagerank(corpus, damping_factor, n)`.  The starting
page (`random.choice`) and the page generated at each step
(`np.random.choice`) are oracle parameters.  The returned dict is modelled as
its key set (the pages drawn at least once) paired with the value function
`count / n`. -/
def sample_pagerank (corpus : Corpus) (damping_factor : ℚ) (n : ℕ)
    (first_page : Page) (draws : ℕ → Page) :
    Except PyErr (Finset Page × (Page → ℚ)) :=
  match sample_loop corpus damping_factor draws first_page n with
  | .error e => .error e
  | .ok (_, vis, cnt) => .ok (vis, fun p => (cnt p : ℚ) / (n : ℚ))

/-- Incrementing a duplicate-free list's summand at a member `x` adds one to
the sum. -/
theorem sum_map_update_succ (l : List Page) (x : Page) (f : Page → ℕ)
    (hnd : l.Nodup) (hx : x ∈ l) :
    (l.map fun p => if p = x then f p + 1 else f p).sum = (l.map f).sum + 1 := by
  induction l with
  | nil => cases hx
  | cons y t ih =>
      have hy : y ∉ t := (List.nodup_cons.mp hnd).1
      have hnt : t.Nodup := (List.nodup_cons.mp hnd).2
      rcases List.mem_cons.mp hx with h | h
      · subst h
        have hmap : (t.map fun p => if p = x then f p + 1 else f p) = t.map f := by
          refine List.map_congr_left fun q hq => ?_
          have hq' : q ≠ x := fun hqq => hy (hqq ▸ hq)
          simp [hq']
        simp [hmap]
        omega
      · have hyx : y ≠ x := fun hh => hy (hh ▸ h)
        simp only [List.map_cons, List.sum_cons, if_neg hyx, ih hnt h]
        omega

/-- Casting each summand to `ℚ` casts the sum. -/
theorem sum_map_natCast (l : List Page) (f : Page → ℕ) :
    (l.map fun p => ((f p : ℕ) : ℚ)).sum = (((l.map f).sum : ℕ) : ℚ) := by
  induction l with
  | nil => simp
  | cons x t ih => simp [ih]

/-- Dividing each summand by a constant divides the sum. -/
theorem sum_map_div (l : List Page) (g : Page → ℚ) (r : ℚ) :
    (l.map fun p => g p / r).sum = (l.map g).sum / r := by
  induction l with
  | nil => simp
  | cons x t ih => simp [ih, add_div]

/-- Walk invariant: on normal return after `n` iterations, the key set is
exactly the set of drawn pages, counts vanish off the key set, every key was
counted at least once, and — when the corpus keys are distinct and every draw
is a key — the counts over the corpus total `n`. -/
theorem sample_loop_invariant (c : Corpus) (d : ℚ) (draws : ℕ → Page)
    (first : Page) (n : ℕ) (g : Page) (vis : Finset Page) (cnt : Page → ℕ)
    (h : sample_loop c d draws first n = .ok (g, vis, cnt)) :
    vis = ((List.range n).map draws).toFinset ∧
    (∀ p, p ∉ vis → cnt p = 0) ∧
    (∀ p ∈ vis, 1 ≤ cnt p) ∧
    (c.pages.Nodup → (∀ i, i < n → draws i ∈ c.pages) →
      (c.pages.map cnt).sum = n) := by
  induction n generalizing g vis cnt with
  | zero =>
      simp only [sample_loop, Except.ok.injEq, Prod.mk.injEq] at h
      obtain ⟨-, hvis, hcnt⟩ := h
      subst hvis
      subst hcnt
      refine ⟨by simp, fun p _ => rfl, fun p hp => absurd hp (Finset.not_mem_empty p), ?_⟩
      intro _ _
      simp
  | succ m ih =>
      rw [sample_loop] at h
      split at h
      next e heq => cases h
      next cur vis0 cnt0 heq =>
        split at h
        next e2 htm => cases h
        next tmd htm =>
          simp only [Except.ok.injEq, Prod.mk.injEq] at h
          obtain ⟨-, hvis, hcnt⟩ := h
          subst hvis
          subst hcnt
          obtain ⟨ivis, izero, ione, isum⟩ := ih cur vis0 cnt0 heq
          refine ⟨?_, ?_, ?_, ?_⟩
          · rw [List.range_succ, List.map_append, List.toFinset_append, ivis]
            simp [Finset.union_comm, Finset.insert_eq]
          · intro p hp
            have hpg : p ≠ draws m := fun hh => hp (hh ▸ Finset.mem_insert_self _ _)
            have hp0 : p ∉ vis0 := fun hh => hp (Finset.mem_insert_of_mem hh)
            simp [hpg, izero p hp0]
          · intro p hp
            by_cases hpg : p = draws m
            · simp [hpg]
            · rcases Finset.mem_insert.mp hp with hh | hh
              · exact absurd hh hpg
              · simpa [hpg] using ione p hh
          · intro hnd hdr
            have hsum0 := isum hnd fun i hi => hdr i (Nat.lt_succ_of_lt hi)
            rw [sum_map_update_succ c.pages (draws m) cnt0 hnd
              (hdr m (Nat.lt_succ_self m)), hsum0]

/-- C3 fails as stated: on the two-page cycle with `n = 1` and every draw
landing on `"a.html"`, the returned mapping's key set is `{"a.html"}` — the
never-drawn page `"b.html"` is omitted, not present with value `0.0`. -/
theorem sample_pagerank_omits_unvisited :
    Except.map Prod.fst
        (sample_pagerank cycle2 (17/20) 1 "a.html" fun _ => "a.html") =
      Except.ok {"a.html"} ∧
    ("b.html" : Page) ∈ cycle2.pages ∧
    ("b.html" : Page) ∉ ({"a.html"} : Finset Page) :=
  ⟨rfl, by decide, by decide⟩

/-- C3 amended: the returned mapping's keys are exactly the pages drawn at
least once during the walk; never-drawn pages are omitted (their count, hence
their defaulted value, is zero). -/
theorem sample_pagerank_keys_are_drawn (c : Corpus) (d : ℚ) (n : ℕ)
    (first : Page) (draws : ℕ → Page) (vis : Finset Page) (f : Page → ℚ)
    (h : sample_pagerank c d n first draws = .ok (vis, f)) :
    vis = ((List.range n).map draws).toFinset ∧ ∀ p, p ∉ vis → f p = 0 := by
  unfold sample_pagerank at h
  rcases heq : sample_loop c d draws first n with e | ⟨g, vis', cnt⟩ <;> rw [heq] at h
  · cases h
  · simp only [Except.ok.injEq, Prod.mk.injEq] at h
    obtain ⟨hvis, hf⟩ := h
    subst hvis
    subst hf
    obtain ⟨ivis, izero, -, -⟩ := sample_loop_invariant c d draws first n g vis' cnt heq
    exact ⟨ivis, fun p hp => by simp [izero p hp]⟩

/-- Witness for the amended C3 on the two-page cycle, `n = 1`, all draws
`"a.html"`. -/
theorem sample_pagerank_keys_are_drawn_witness :
    ({"a.html"} : Finset Page) = ((List.range 1).map fun _ => "a.html").toFinset ∧
      ∀ p, p ∉ ({"a.html"} : Finset Page) →
        ((if p = "a.html" then 1 else 0 : ℕ) : ℚ) / ((1 : ℕ) : ℚ) = 0 :=
  sample_pagerank_keys_are_drawn cycle2 (17/20) 1 "a.html" (fun _ => "a.html")
    {"a.html"} (fun p => ((if p = "a.html" then 1 else 0 : ℕ) : ℚ) / ((1 : ℕ) : ℚ)) rfl

/-- C4: whenever `sample_pagerank` returns normally, every value is
non-negative and, defaulting the pages absent from the mapping to `0`, the
values over the corpus pages sum to `1`. -/
theorem sample_pagerank_mass_one (c : Corpus) (d : ℚ) (n : ℕ)
    (first : Page) (draws : ℕ → Page) (vis : Finset Page) (f : Page → ℚ)
    (hv : c.Valid) (hn : 1 ≤ n) (hdr : ∀ i, i < n → draws i ∈ c.pages)
    (h : sample_pagerank c d n first draws = .ok (vis, f)) :
    (∀ p, 0 ≤ f p) ∧
      (c.pages.map fun p => if p ∈ vis then f p else 0).sum = 1 := by
  unfold sample_pagerank at h
  split at h
  next e heq => cases h
  next g vis' cnt heq =>
    simp only [Except.ok.injEq, Prod.mk.injEq] at h
    obtain ⟨hvis, hf⟩ := h
    subst hvis
    subst hf
    obtain ⟨-, izero, -, isum⟩ :=
      sample_loop_invariant c d draws first n g vis' cnt heq
    constructor
    · intro p
      exact div_nonneg (Nat.cast_nonneg _) (Nat.cast_nonneg _)
    · have hmap : (c.pages.map fun p =>
            if p ∈ vis' then (cnt p : ℚ) / (n : ℚ) else 0)
          = c.pages.map fun p => (cnt p : ℚ) / (n : ℚ) := by
        refine List.map_congr_left fun q _ => ?_
        by_cases hqv : q ∈ vis'
        · simp [hqv]
        · simp [hqv, izero q hqv]
      rw [hmap, sum_map_div, sum_map_natCast, isum hv.1 hdr]
      exact div_self (by exact_mod_cast Nat.one_le_iff_ne_zero.mp hn)

/-- Witness for C4 on the two-page cycle, `n = 1`, all draws `"a.html"`. -/
theorem sample_pagerank_mass_one_witness :
    (∀ p, 0 ≤ ((if p = "a.html" then 1 else 0 : ℕ) : ℚ) / ((1 : ℕ) : ℚ)) ∧
      (cycle2.pages.map fun p => if p ∈ ({"a.html"} : Finset Page) then
          ((if p = "a.html" then 1 else 0 : ℕ) : ℚ) / ((1 : ℕ) : ℚ) else 0).sum = 1 :=
  sample_pagerank_mass_one cycle2 (17/20) 1 "a.html" (fun _ => "a.html")
    {"a.html"} (fun p => ((if p = "a.html" then 1 else 0 : ℕ) : ℚ) / ((1 : ℕ) : ℚ))
    (by unfold Corpus.Valid; decide) le_rfl
    (fun i _ => (by decide : ("a.html" : Page) ∈ cycle2.pages)) rfl

/-- C10: every value present in the returned mapping is `k / n` for an
integer `k ≥ 1`; in particular no stored value is zero. -/
theorem sample_pagerank_values_kn (c : Corpus) (d : ℚ) (n : ℕ)
    (first : Page) (draws : ℕ → Page) (vis : Finset Page) (f : Page → ℚ)
    (hn : 1 ≤ n)
    (h : sample_pagerank c d n first draws = .ok (vis, f)) :
    ∀ p ∈ vis, ∃ k : ℕ, 1 ≤ k ∧ f p = (k : ℚ) / (n : ℚ) ∧ 0 < f p := by
  unfold sample_pagerank at h
  split at h
  next e heq => cases h
  next g vis' cnt heq =>
    simp only [Except.ok.injEq, Prod.mk.injEq] at h
    obtain ⟨hvis, hf⟩ := h
    subst hvis
    subst hf
    obtain ⟨-, -, ione, -⟩ :=
      sample_loop_invariant c d draws first n g vis' cnt heq
    intro p hp
    refine ⟨cnt p, ione p hp, rfl, ?_⟩
    have h1 : (0 : ℚ) < (cnt p : ℚ) := by exact_mod_cast ione p hp
    have h2 : (0 : ℚ) < (n : ℚ) := by exact_mod_cast hn
    exact div_pos h1 h2

/-- Witness for C10 on the two-page cycle, `n = 1`, all draws `"a.html"`,
evaluated at the drawn page `"a.html"`. -/
theorem sample_pagerank_values_kn_witness :
    ∃ k : ℕ, 1 ≤ k ∧
      ((if ("a.html" : Page) = "a.html" then 1 else 0 : ℕ) : ℚ) / ((1 : ℕ) : ℚ)
        = (k : ℚ) / ((1 : ℕ) : ℚ) ∧
      0 < ((if ("a.html" : Page) = "a.html" then 1 else 0 : ℕ) : ℚ) / ((1 : ℕ) : ℚ) :=
  sample_pagerank_values_kn cycle2 (17/20) 1 "a.html" (fun _ => "a.html")
    {"a.html"} (fun p => ((if p = "a.html" then 1 else 0 : ℕ) : ℚ) / ((1 : ℕ) : ℚ))
    le_rfl rfl "a.html" (by decide)

/-- C8 fails as stated: `n = 0` violates `n ≥ 1`, yet the call returns
normally (with an empty mapping) instead of failing. -/
theorem sample_pagerank_no_n_validation :
    (0 : ℕ) < 1 ∧
      exceptOk (sample_pagerank cycle2 (17/20) 0 "a.html" fun _ => "a.html") = true :=
  ⟨by decide, rfl⟩

/-- C8 amended: `sample_pagerank` performs no validation of `n`; called with
`n = 0` it makes no draws and returns the empty mapping (every value zero)
rather than failing. -/
theorem sample_pagerank_zero_samples (c : Corpus) (d : ℚ) (first : Page)
    (draws : ℕ → Page) :
    sample_pagerank c d 0 first draws = .ok (∅, fun _ => 0) := by
  show Except.ok (∅, fun _ : Page => ((0 : ℕ) : ℚ) / ((0 : ℕ) : ℚ)) = _
  have hfun : (fun _ : Page => ((0 : ℕ) : ℚ) / ((0 : ℕ) : ℚ))
      = fun _ : Page => (0 : ℚ) := by
    funext p
    norm_num
  rw [hfun]

/-- Witness for the amended C7 on the two-page cycle with `d = 17/20`. -/
theorem transition_model_error_conditions_witness :
    cycle2.Valid ∧
    (("c.html" : Page) ∉ cycle2.pages →
      transition_model cycle2 "c.html" (17/20) = .error .keyError) ∧
    (("c.html" : Page) ∈ cycle2.pages → linksD cycle2 "c.html" = ∅ →
      transition_model cycle2 "c.html" (17/20) = .error .zeroDivisionError) ∧
    (("c.html" : Page) ∈ cycle2.pages → linksD cycle2 "c.html" ≠ ∅ →
      exceptOk (transition_model cycle2 "c.html" (17/20)) = true) :=
  ⟨by unfold Corpus.Valid; decide,
    transition_model_error_conditions cycle2 "c.html" (17/20)
      (by unfold Corpus.Valid; decide)⟩

/-- The key list of the `links_to_key` dict `iterate_pagerank` builds for
`key`: the pages `check` with `key in corpus[check]` or `len(corpus[check])
== 0`, in corpus order. -/
def links_to_key (c : Corpus) (key : Page) : List Page :=
  c.pages.filter fun check =>
    decide (key ∈ linksD c check ∨ linksD c check = ∅)

/-- The value the `links_to_key` dict stores at a member `check`: its number
of outbound links, except that a dangling page's zero is overwritten with
`N`. -/
def ltk_denom (c : Corpus) (check : Page) : ℕ :=
  if linksD c check = ∅ then c.N else (linksD c check).card

/-- The entry the sweep writes into `return_dict` at `key`, computed from the
snapshot `cur`: `(1-d)/N + d * Σ cur[link]/links_to_key[link]` when the
`links_to_key` dict is non-empty, and the bare teleport term otherwise. -/
def newRank (c : Corpus) (d : ℚ) (cur : Page → ℚ) (key : Page) : ℚ :=
  if links_to_key c key ≠ [] then
    (1 - d) / (c.N : ℚ) +
      d * ((links_to_key c key).map fun link =>
        cur link / (ltk_denom c link : ℚ)).sum
  else (1 - d) / (c.N : ℚ)

/-- The keys at which the convergence check fails, i.e. with
`|return_dict[key] - current_dict[key]| > 0.001`. -/
def failing (c : Corpus) (d : ℚ) (cur : Page → ℚ) : List Page :=
  c.pages.filter fun key =>
    decide ((1 : ℚ)/1000 < |newRank c d cur key - cur key|)

/-- The snapshot the next sweep reads: the check loop copies `return_dict`
into `current_dict` only at the keys that failed the convergence test. -/
def nextCur (c : Corpus) (d : ℚ) (cur : Page → ℚ) : Page → ℚ :=
  fun key => if key ∈ failing c d cur then newRank c d cur key else cur key

/-- The `while True` loop of `iterate_pagerank`, with explicit fuel standing
for the unbounded iteration: each pass computes the sweep from the snapshot
`cur`, returns `return_dict` if `complete_check` survived, and otherwise
recurses on the updated snapshot. -/
def iterate_aux (c : Corpus) (d : ℚ) : ℕ → (Page → ℚ) → Option (Page → ℚ)
  | 0, _ => none
  | fuel + 1, cur =>
      if failing c d cur = [] then some fun key => newRank c d cur key
      else iterate_aux c d fuel (nextCur c d cur)

/-- Embedding of `iterate_pagerank(corpus, damping_factor)`: every rank
starts at `1/N` and the loop runs until a sweep passes the convergence test
(or the fuel runs out, modelling non-termination). -/
def iterate_pagerank (c : Corpus) (d : ℚ) (fuel : ℕ) : Option (Page → ℚ) :=
  iterate_aux c d fuel fun _ => 1 / (c.N : ℚ)

/-- The update rule exactly as the spec words it: the teleport term, plus `d`
times the sum over the pages actually linking to `p` of `cur q / L(q)`, plus
`d` times the contribution `cur q / N` that every dangling page `q` makes to
every page of the graph. -/
def specNewRank (c : Corpus) (d : ℚ) (cur : Page → ℚ) (p : Page) : ℚ :=
  (1 - d) / (c.N : ℚ) +
    d * ((c.pages.filter fun q => decide (p ∈ linksD c q)).map fun q =>
      cur q / ((linksD c q).card : ℚ)).sum +
    d * ((c.pages.filter fun q => decide (linksD c q = ∅)).map fun q =>
      cur q / (c.N : ℚ)).sum

/-- Cons step of a `decide`-filter when the head satisfies the predicate. -/
theorem filter_decide_cons_pos (P : Page → Prop) [DecidablePred P]
    (x : Page) (t : List Page) (h : P x) :
    (x :: t).filter (fun a => decide (P a)) =
      x :: t.filter (fun a => decide (P a)) := by
  simp [List.filter_cons, h]

/-- Cons step of a `decide`-filter when the head fails the predicate. -/
theorem filter_decide_cons_neg (P : Page → Prop) [DecidablePred P]
    (x : Page) (t : List Page) (h : ¬ P x) :
    (x :: t).filter (fun a => decide (P a)) =
      t.filter (fun a => decide (P a)) := by
  simp [List.filter_cons, h]

/-- Splitting the `links_to_key` sum into the actual in-link part and the
dangling part, over any key list. -/
theorem links_to_key_sum_split (c : Corpus) (cur : Page → ℚ) (p : Page)
    (l : List Page) :
    ((l.filter fun check =>
        decide (p ∈ linksD c check ∨ linksD c check = ∅)).map
      fun link => cur link / (ltk_denom c link : ℚ)).sum =
    ((l.filter fun q => decide (p ∈ linksD c q)).map fun q =>
      cur q / ((linksD c q).card : ℚ)).sum +
    ((l.filter fun q => decide (linksD c q = ∅)).map fun q =>
      cur q / (c.N : ℚ)).sum := by
  induction l with
  | nil => simp
  | cons x t ih =>
      by_cases hQ : linksD c x = ∅
      · have hP : p ∉ linksD c x := by simp [hQ]
        have hdx : ((ltk_denom c x : ℕ) : ℚ) = (c.N : ℚ) := by
          unfold ltk_denom
          rw [if_pos hQ]
        rw [@filter_decide_cons_pos
            (fun check => p ∈ linksD c check ∨ linksD c check = ∅) _ x t (Or.inr hQ),
          @filter_decide_cons_neg (fun q => p ∈ linksD c q) _ x t hP,
          @filter_decide_cons_pos (fun q => linksD c q = ∅) _ x t hQ]
        simp only [List.map_cons, List.sum_cons, ih, hdx]
        ring
      · by_cases hP : p ∈ linksD c x
        · have hdx : ((ltk_denom c x : ℕ) : ℚ) = ((linksD c x).card : ℚ) := by
            unfold ltk_denom
            rw [if_neg hQ]
          rw [@filter_decide_cons_pos
              (fun check => p ∈ linksD c check ∨ linksD c check = ∅) _ x t (Or.inl hP),
            @filter_decide_cons_pos (fun q => p ∈ linksD c q) _ x t hP,
            @filter_decide_cons_neg (fun q => linksD c q = ∅) _ x t hQ]
          simp only [List.map_cons, List.sum_cons, ih, hdx]
          ring
        · have hPQ : ¬ (p ∈ linksD c x ∨ linksD c x = ∅) := by
            intro h
            rcases h with h | h
            · exact hP h
            · exact hQ h
          rw [@filter_decide_cons_neg
              (fun check => p ∈ linksD c check ∨ linksD c check = ∅) _ x t hPQ,
            @filter_decide_cons_neg (fun q => p ∈ linksD c q) _ x t hP,
            @filter_decide_cons_neg (fun q => linksD c q = ∅) _ x t hQ]
          exact ih

/-- C6: the rank the sweep writes for any page `p` follows the spec formula:
`(1-d)/N` plus `d` times the sum of `cur q / L(q)` over actual in-linking
pages `q` plus `d` times the contribution `cur q / N` that every dangling
page `q` makes to every page's sum. -/
theorem newRank_eq_spec (c : Corpus) (d : ℚ) (cur : Page → ℚ) (p : Page) :
    newRank c d cur p = specNewRank c d cur p := by
  unfold newRank specNewRank
  split
  next hne =>
      rw [show links_to_key c p = c.pages.filter fun check =>
          decide (p ∈ linksD c check ∨ linksD c check = ∅) from rfl,
        links_to_key_sum_split c cur p c.pages]
      ring
  next hne =>
      have h : links_to_key c p = [] := not_ne_iff.mp hne
      have hall := List.filter_eq_nil_iff.mp h
      have h1 : (c.pages.filter fun q => decide (p ∈ linksD c q)) = [] := by
        refine List.filter_eq_nil_iff.mpr fun a ha => ?_
        have := hall a ha
        simp only [decide_eq_true_eq] at this ⊢
        exact fun hmem => this (Or.inl hmem)
      have h2 : (c.pages.filter fun q => decide (linksD c q = ∅)) = [] := by
        refine List.filter_eq_nil_iff.mpr fun a ha => ?_
        have := hall a ha
        simp only [decide_eq_true_eq] at this ⊢
        exact fun hmem => this (Or.inr hmem)
      rw [h1, h2]
      simp

/-- Three pages `{"1.html": {"2.html"}, "2.html": {"1.html"},
"3.html": {"1.html", "2.html"}}`.  With `d = 1/200` the first sweep moves
pages 1 and 2 by `1/1200` (within ε = 0.001) but page 3 by `1/600`
(beyond ε). -/
def mixed3 : Corpus where
  pages := ["1.html", "2.html", "3.html"]
  links := fun p =>
    if p = "1.html" then some {"2.html"}
    else if p = "2.html" then some {"1.html"}
    else if p = "3.html" then some ({"1.html", "2.html"} : Finset Page)
    else none

/-- C5 fails on the code: on `mixed3` with `d = 1/200`, the first sweep from
the uniform initial snapshot (`1/3` everywhere, as `iterate_pagerank` sets
up) fails the convergence test — page `"3.html"` moves by more than ε — yet
the snapshot entry of the already-converged page `"1.html"` is left at its
old value `1/3`, different from that page's newly computed rank: the check
loop replaces only the failing entries, so a stale value carries into the
next sweep. -/
theorem iterate_keeps_stale_snapshot_entries :
    (fun _ : Page => 1 / (mixed3.N : ℚ)) = (fun _ : Page => (1/3 : ℚ)) ∧
    failing mixed3 (1/200) (fun _ => (1/3 : ℚ)) ≠ [] ∧
    nextCur mixed3 (1/200) (fun _ => (1/3 : ℚ)) "1.html" = 1/3 ∧
    newRank mixed3 (1/200) (fun _ => (1/3 : ℚ)) "1.html" ≠ 1/3 := by
  have hl1 : links_to_key mixed3 "1.html" = ["2.html", "3.html"] := by rfl
  have hl3 : links_to_key mixed3 "3.html" = [] := by rfl
  have hd2 : ltk_denom mixed3 "2.html" = 1 := by rfl
  have hd3 : ltk_denom mixed3 "3.html" = 2 := by rfl
  have hN : (mixed3.N : ℚ) = 3 := by norm_num [mixed3, Corpus.N]
  have h1 : newRank mixed3 (1/200) (fun _ => (1/3 : ℚ)) "1.html" = 401/1200 := by
    rw [newRank, hl1, if_pos (by simp)]
    simp only [List.map_cons, List.map_nil, List.sum_cons, List.sum_nil,
      hd2, hd3, hN]
    norm_num
  have h3 : newRank mixed3 (1/200) (fun _ => (1/3 : ℚ)) "3.html" = 199/600 := by
    rw [newRank, hl3, if_neg (by simp), hN]
    norm_num
  have hmem : "3.html" ∈ failing mixed3 (1/200) (fun _ => (1/3 : ℚ)) := by
    unfold failing
    refine List.mem_filter.mpr ⟨by decide, ?_⟩
    simp only [decide_eq_true_eq, h3]
    rw [show (199/600 : ℚ) - 1/3 = -(1/600) by norm_num, abs_neg,
      abs_of_pos (by norm_num : (0 : ℚ) < 1/600)]
    norm_num
  have hnotmem : "1.html" ∉ failing mixed3 (1/200) (fun _ => (1/3 : ℚ)) := by
    unfold failing
    intro hmem1
    have hcond := (List.mem_filter.mp hmem1).2
    simp only [decide_eq_true_eq, h1] at hcond
    rw [show (401/1200 : ℚ) - 1/3 = 1/1200 by norm_num,
      abs_of_pos (by norm_num : (0 : ℚ) < 1/1200)] at hcond
    norm_num at hcond
  refine ⟨by funext p; rw [hN], ?_, ?_, ?_⟩
  · intro hemp
    exact absurd (hemp ▸ hmem) (List.not_mem_nil _)
  · unfold nextCur
    rw [if_neg hnotmem]
  · rw [h1]
    norm_num

/-- C9: on the two-page cycle with `d = 0.85` the iteration's first sweep
already satisfies the convergence test, so for every positive fuel it
returns, and both pages receive exactly `1/2`. -/
theorem iterate_cycle2_half (fuel : ℕ) :
    Option.map (fun f => (f "a.html", f "b.html"))
      (iterate_pagerank cycle2 (17/20) (fuel + 1)) = some (1/2, 1/2) := by
  have hN : (cycle2.N : ℚ) = 2 := by norm_num [cycle2, Corpus.N]
  have hla : links_to_key cycle2 "a.html" = ["b.html"] := by rfl
  have hlb : links_to_key cycle2 "b.html" = ["a.html"] := by rfl
  have hda : ltk_denom cycle2 "a.html" = 1 := by rfl
  have hdb : ltk_denom cycle2 "b.html" = 1 := by rfl
  have hcur : (fun _ : Page => 1 / (cycle2.N : ℚ)) = fun _ : Page => (1/2 : ℚ) := by
    funext p
    rw [hN]
  have ha : newRank cycle2 (17/20) (fun _ => (1/2 : ℚ)) "a.html" = 1/2 := by
    rw [newRank, hla, if_pos (by simp)]
    simp only [List.map_cons, List.map_nil, List.sum_cons, List.sum_nil, hdb, hN]
    norm_num
  have hb : newRank cycle2 (17/20) (fun _ => (1/2 : ℚ)) "b.html" = 1/2 := by
    rw [newRank, hlb, if_pos (by simp)]
    simp only [List.map_cons, List.map_nil, List.sum_cons, List.sum_nil, hda, hN]
    norm_num
  have hfail : failing cycle2 (17/20) (fun _ => (1/2 : ℚ)) = [] := by
    unfold failing
    refine List.filter_eq_nil_iff.mpr fun a hmem => ?_
    simp only [decide_eq_true_eq]
    have : a = "a.html" ∨ a = "b.html" := by
      simpa [cycle2] using hmem
    rcases this with h | h <;> subst h
    · rw [ha]
      norm_num
    · rw [hb]
      norm_num
  have hrun : iterate_pagerank cycle2 (17/20) (fuel + 1)
      = some fun key => newRank cycle2 (17/20) (fun _ => (1/2 : ℚ)) key := by
    rw [iterate_pagerank, hcur]
    simp only [iterate_aux, hfail, if_pos]
  rw [hrun, Option.map_some']
  refine congrArg some ?_
  show (newRank cycle2 (17/20) (fun _ => (1/2 : ℚ)) "a.html",
    newRank cycle2 (17/20) (fun _ => (1/2 : ℚ)) "b.html") = (1/2, 1/2)
  rw [ha, hb]
